import Mathlib

/-!
# R2PointDeq: a bounded circular deque of points (src/R2Conv/PointDeq.h)

A shallow embedding of `class R2PointDeq` and of its nested `iterator`.

* C++ `int` is `Int`; every value the deque itself computes lies between `-1` and
  the capacity, so no machine overflow is involved.
* The element type `R2Point` comes from `R2Graph/R2Graph.h`, which is not part of
  the sources at hand.  The deque only default-constructs and copies points, so
  the point type is a parameter `P` with an `Inhabited` instance standing for the
  default constructor.
* `m_Elements` (a heap array of `m_MaxElem` points) is a `List P`.  A slot is
  written with `List.set` and read with `List.getD`; an access outside the array
  (undefined behaviour in C++) leaves the list unchanged, resp. reads `default`.
* A member function that may throw returns the pair of its outcome
  (`Except DeqException _`) and of the deque state after the call, so that
  "the call left the deque unchanged" is a statement about the function.
-/

namespace PointDeq

/-- The three reasons `DeqException` is thrown with in PointDeq.h:
"Deq overflow", "Deq empty" and "Index out of bounds". -/
inductive DeqException where
  | overflow
  | empty
  | indexOutOfBounds
  deriving DecidableEq, Repr

/-- The data members of `class R2PointDeq`. -/
structure R2PointDeq (P : Type) where
  m_MaxElem : Int
  m_Begin : Int
  m_End : Int
  m_NumElem : Int
  m_Elements : List P
  deriving DecidableEq, Repr

/-- The constructor `R2PointDeq(int maxElem)`.  It has no check of its own; the
only thing in it that can fail is `new R2Point[m_MaxElem]`, which yields no
array for a negative length (`none`). -/
def R2PointDeq.construct {P : Type} [Inhabited P] (maxElem : Int) : Option (R2PointDeq P) :=
  if maxElem < 0 then none
  else some
    { m_MaxElem := maxElem
      m_Begin := 0
      m_End := maxElem - 1
      m_NumElem := 0
      m_Elements := List.replicate maxElem.toNat default }

/-- The constant `DEQ_MAXELEM`. -/
def DEQ_MAXELEM : Int := 1024

/-- The default constructor `R2PointDeq()`, which allocates `DEQ_MAXELEM`
slots. -/
def R2PointDeq.constructDefault {P : Type} [Inhabited P] : R2PointDeq P :=
  { m_MaxElem := DEQ_MAXELEM
    m_Begin := 0
    m_End := DEQ_MAXELEM - 1
    m_NumElem := 0
    m_Elements := List.replicate DEQ_MAXELEM.toNat default }

/-- The private helper `nextIndex`. -/
def R2PointDeq.nextIndex {P : Type} (d : R2PointDeq P) (i : Int) : Int :=
  if i < d.m_MaxElem - 1 then i + 1 else 0

/-- The private helper `prevIndex`. -/
def R2PointDeq.prevIndex {P : Type} (d : R2PointDeq P) (i : Int) : Int :=
  if i > 0 then i - 1 else d.m_MaxElem - 1

/-- The read `m_Elements[i]`. -/
def R2PointDeq.elem {P : Type} [Inhabited P] (d : R2PointDeq P) (i : Int) : P :=
  d.m_Elements.getD i.toNat default

/-- The assignment `m_Elements[i] = p`. -/
def R2PointDeq.store {P : Type} (d : R2PointDeq P) (i : Int) (p : P) : R2PointDeq P :=
  { d with m_Elements := d.m_Elements.set i.toNat p }

/-- The member `pushFront`. -/
def R2PointDeq.pushFront {P : Type} (d : R2PointDeq P) (p : P) :
    Except DeqException Unit × R2PointDeq P :=
  if d.m_NumElem ≥ d.m_MaxElem then (.error .overflow, d)
  else
    let d1 := { d with m_Begin := d.prevIndex d.m_Begin }
    let d2 := d1.store d1.m_Begin p
    (.ok (), { d2 with m_NumElem := d2.m_NumElem + 1 })

/-- The member `pushBack`. -/
def R2PointDeq.pushBack {P : Type} (d : R2PointDeq P) (p : P) :
    Except DeqException Unit × R2PointDeq P :=
  if d.m_NumElem ≥ d.m_MaxElem then (.error .overflow, d)
  else
    let d1 := { d with m_End := d.nextIndex d.m_End }
    let d2 := d1.store d1.m_End p
    (.ok (), { d2 with m_NumElem := d2.m_NumElem + 1 })

/-- The member `popFront`. -/
def R2PointDeq.popFront {P : Type} [Inhabited P] (d : R2PointDeq P) :
    Except DeqException P × R2PointDeq P :=
  if d.m_NumElem ≤ 0 then (.error .empty, d)
  else
    let i := d.m_Begin
    let d1 := { d with m_Begin := d.nextIndex d.m_Begin }
    let d2 := { d1 with m_NumElem := d1.m_NumElem - 1 }
    (.ok (d2.elem i), d2)

/-- The member `popBack`. -/
def R2PointDeq.popBack {P : Type} [Inhabited P] (d : R2PointDeq P) :
    Except DeqException P × R2PointDeq P :=
  if d.m_NumElem ≤ 0 then (.error .empty, d)
  else
    let i := d.m_End
    let d1 := { d with m_End := d.prevIndex d.m_End }
    let d2 := { d1 with m_NumElem := d1.m_NumElem - 1 }
    (.ok (d2.elem i), d2)

/-- The member `front` (both overloads have the same body). -/
def R2PointDeq.front {P : Type} [Inhabited P] (d : R2PointDeq P) :
    Except DeqException P × R2PointDeq P :=
  if d.m_NumElem ≤ 0 then (.error .empty, d)
  else (.ok (d.elem d.m_Begin), d)

/-- The member `back` (both overloads have the same body). -/
def R2PointDeq.back {P : Type} [Inhabited P] (d : R2PointDeq P) :
    Except DeqException P × R2PointDeq P :=
  if d.m_NumElem ≤ 0 then (.error .empty, d)
  else (.ok (d.elem d.m_End), d)

/-- The member `clear`. -/
def R2PointDeq.clear {P : Type} (d : R2PointDeq P) : R2PointDeq P :=
  let d1 := { d with m_Begin := 0 }
  let d2 := { d1 with m_End := d1.m_MaxElem - 1 }
  { d2 with m_NumElem := 0 }

/-- The member `size`. -/
def R2PointDeq.size {P : Type} (d : R2PointDeq P) : Int := d.m_NumElem

/-- The member `maxSize`. -/
def R2PointDeq.maxSize {P : Type} (d : R2PointDeq P) : Int := d.m_MaxElem

/-- The data members of the nested `class iterator`.  The pointer `deq` is kept
as the identity (address) of the deque object the iterator is bound to; the
operations that go through the pointer take the pointee as an argument. -/
structure iterator where
  deq : Nat
  current : Int
  pos : Int
  deriving DecidableEq, Repr

/-- The prefix `operator++`. -/
def iterator.incr {P : Type} (it : iterator) (d : R2PointDeq P) : iterator :=
  let it1 := { it with pos := it.pos + 1 }
  { it1 with current := d.nextIndex it1.current }

/-- The prefix `operator--`. -/
def iterator.decr {P : Type} (it : iterator) (d : R2PointDeq P) : iterator :=
  let it1 := { it with pos := it.pos - 1 }
  { it1 with current := d.prevIndex it1.current }

/-- The member `operator+=`; the `%=` of C++ truncates towards zero
(`Int.tmod`). -/
def iterator.addAssign {P : Type} (it : iterator) (d : R2PointDeq P) (n : Int) : iterator :=
  let it1 := { it with pos := it.pos + n }
  let it2 := { it1 with current := it1.current + n }
  let it3 := { it2 with current := Int.tmod it2.current d.m_MaxElem }
  if it3.current < 0 then { it3 with current := it3.current + d.m_MaxElem } else it3

/-- The member `operator-=`. -/
def iterator.subAssign {P : Type} (it : iterator) (d : R2PointDeq P) (n : Int) : iterator :=
  it.addAssign d (-n)

/-- The member `operator*`. -/
def iterator.deref {P : Type} [Inhabited P] (it : iterator) (d : R2PointDeq P) :
    Except DeqException P × R2PointDeq P :=
  if it.pos ≥ d.size then (.error .indexOutOfBounds, d)
  else (.ok (d.elem it.current), d)

/-- The member `operator->`, which yields the address of the slot `operator*`
yields; the slot is represented by its content. -/
def iterator.arrow {P : Type} [Inhabited P] (it : iterator) (d : R2PointDeq P) :
    Except DeqException P × R2PointDeq P :=
  if it.pos ≥ d.size then (.error .indexOutOfBounds, d)
  else (.ok (d.elem it.current), d)

/-- The member `operator==`. -/
def iterator.eq (it i : iterator) : Bool :=
  it.deq == i.deq && it.pos == i.pos

/-- The member `operator!=`. -/
def iterator.ne (it i : iterator) : Bool :=
  !(it.eq i)

/-- The member `begin`; `self` is the address `this`. -/
def R2PointDeq.begin {P : Type} (d : R2PointDeq P) (self : Nat) : iterator :=
  { deq := self, current := d.m_Begin, pos := 0 }

/-- The member `end`; `self` is the address `this`. -/
def R2PointDeq.end_ {P : Type} (d : R2PointDeq P) (self : Nat) : iterator :=
  { deq := self, current := d.nextIndex d.m_End, pos := d.size }

/-- The free `operator+(const iterator&, int)`. -/
def iterator.plus {P : Type} (i : iterator) (d : R2PointDeq P) (n : Int) : iterator :=
  let tmp := i
  tmp.addAssign d n

/-- The free `operator-(const iterator&, int)`. -/
def iterator.minus {P : Type} (i : iterator) (d : R2PointDeq P) (n : Int) : iterator :=
  i.plus d (-n)

/-! ### Call sequences, reachable states, logical contents, traversal -/

/-- One call of a mutating member function of the deque. -/
inductive Call (P : Type) where
  | pushFront (p : P)
  | pushBack (p : P)
  | popFront
  | popBack
  | clear
  deriving DecidableEq, Repr

/-- The deque after one call, whether the call returned or threw. -/
def R2PointDeq.call {P : Type} [Inhabited P] (d : R2PointDeq P) : Call P → R2PointDeq P
  | .pushFront p => (d.pushFront p).2
  | .pushBack p => (d.pushBack p).2
  | .popFront => d.popFront.2
  | .popBack => d.popBack.2
  | .clear => d.clear

/-- Whether one call throws a `DeqException`. -/
def R2PointDeq.callThrows {P : Type} [Inhabited P] (d : R2PointDeq P) : Call P → Bool
  | .pushFront p => !(d.pushFront p).1.toBool
  | .pushBack p => !(d.pushBack p).1.toBool
  | .popFront => !d.popFront.1.toBool
  | .popBack => !d.popBack.1.toBool
  | .clear => false

/-- The deque after a sequence of calls, made one after the other. -/
def R2PointDeq.calls {P : Type} [Inhabited P] (d : R2PointDeq P) : List (Call P) → R2PointDeq P
  | [] => d
  | c :: cs => (d.call c).calls cs

/-- Whether any call of a sequence throws. -/
def R2PointDeq.anyThrows {P : Type} [Inhabited P] (d : R2PointDeq P) : List (Call P) → Bool
  | [] => false
  | c :: cs => d.callThrows c || (d.call c).anyThrows cs

/-- A state some sequence of calls produces from a deque constructed with
capacity `c`. -/
def ReachableFrom {P : Type} [Inhabited P] (c : Int) (d : R2PointDeq P) : Prop :=
  ∃ d0 : R2PointDeq P, R2PointDeq.construct c = some d0 ∧ ∃ cs : List (Call P), d = d0.calls cs

/-- A state reachable from a constructed deque of some capacity. -/
def Reachable {P : Type} [Inhabited P] (d : R2PointDeq P) : Prop :=
  ∃ c : Int, ReachableFrom c d

/-- The logical contents: the slots `(m_Begin + p) mod m_MaxElem` for
`p = 0 .. m_NumElem - 1`, front first. -/
def R2PointDeq.contents {P : Type} [Inhabited P] (d : R2PointDeq P) : List P :=
  (List.range d.m_NumElem.toNat).map
    (fun (p : Nat) => d.elem ((d.m_Begin + (p : Int)) % d.m_MaxElem))

/-- The loop `for (it = from; it != d.end(); ++it) visit(*it)` run for at most
`fuel` rounds: `none` when the rounds do not suffice, the exception when a
dereference throws, the visited points otherwise. -/
def traverseFrom {P : Type} [Inhabited P] (d : R2PointDeq P) (self : Nat) :
    Nat → iterator → Option (Except DeqException (List P))
  | 0, it => if it.ne (d.end_ self) then none else some (.ok [])
  | fuel + 1, it =>
    if it.ne (d.end_ self) then
      match (it.deref d).1 with
      | .error e => some (.error e)
      | .ok x =>
        match traverseFrom d self fuel (it.incr d) with
        | some (.ok xs) => some (.ok (x :: xs))
        | r => r
    else some (.ok [])

/-- The traversal of the whole range `begin() .. end()`. -/
def R2PointDeq.traverse {P : Type} [Inhabited P] (d : R2PointDeq P) (self : Nat) (fuel : Nat) :
    Option (Except DeqException (List P)) :=
  traverseFrom d self fuel (d.begin self)

/-- Whether a call is one of the two pushes. -/
def Call.isPush {P : Type} : Call P → Bool
  | .pushFront _ => true
  | .pushBack _ => true
  | _ => false

/-- Whether a call is one of the two pops. -/
def Call.isPop {P : Type} : Call P → Bool
  | .popFront => true
  | .popBack => true
  | _ => false

/-- The invariant as the specification words it: `0 <= count <= capacity`, both
indices in `[0, capacity)`, and `endIndex == (beginIndex + count - 1) mod
capacity` once `count > 0`. -/
def SpecInvariant {P : Type} (d : R2PointDeq P) : Prop :=
  0 ≤ d.m_NumElem ∧ d.m_NumElem ≤ d.m_MaxElem ∧
  0 ≤ d.m_Begin ∧ d.m_Begin < d.m_MaxElem ∧
  0 ≤ d.m_End ∧ d.m_End < d.m_MaxElem ∧
  (d.m_NumElem > 0 → d.m_End = (d.m_Begin + d.m_NumElem - 1) % d.m_MaxElem)

/-- The representation invariant the proofs carry along for a deque of capacity
at least one: the array has `m_MaxElem` slots, the indices and the count are in
range, and `m_End + 1` is `m_Begin + m_NumElem` up to one turn of the ring. -/
def Inv {P : Type} (d : R2PointDeq P) : Prop :=
  1 ≤ d.m_MaxElem ∧ d.m_Elements.length = d.m_MaxElem.toNat ∧
  0 ≤ d.m_Begin ∧ d.m_Begin < d.m_MaxElem ∧
  0 ≤ d.m_End ∧ d.m_End < d.m_MaxElem ∧
  0 ≤ d.m_NumElem ∧ d.m_NumElem ≤ d.m_MaxElem ∧
  (d.m_End + 1 = d.m_Begin + d.m_NumElem ∨
   d.m_End + 1 = d.m_Begin + d.m_NumElem - d.m_MaxElem ∨
   d.m_End + 1 = d.m_Begin + d.m_NumElem + d.m_MaxElem)

/-- A deque of capacity 3 whose window wraps around the end of the array: the
state after `pushFront 5`, `pushBack 7` on a new deque. -/
def wrapped3 : R2PointDeq Nat :=
  { m_MaxElem := 3, m_Begin := 2, m_End := 0, m_NumElem := 2, m_Elements := [7, 0, 5] }

/-- A full deque of capacity 2: the state after `pushBack 4`, `pushFront 6` on a
new deque. -/
def full2 : R2PointDeq Nat :=
  { m_MaxElem := 2, m_Begin := 1, m_End := 0, m_NumElem := 2, m_Elements := [4, 6] }

/-- An empty deque of capacity 3 whose indices are away from their initial
values: the state after `pushBack 1`, `popFront` on a new deque. -/
def drained3 : R2PointDeq Nat :=
  { m_MaxElem := 3, m_Begin := 1, m_End := 0, m_NumElem := 0, m_Elements := [1, 0, 0] }

/-- The loop `for (k = 0; k < n; ++k) ++it;`: `n` successive single-step
increments. -/
def iterator.incrTimes {P : Type} (d : R2PointDeq P) : Nat → iterator → iterator
  | 0, it => it
  | n + 1, it => iterator.incrTimes d n (it.incr d)

/-- The loop `for (k = 0; k < n; ++k) --it;`: `n` successive single-step
decrements. -/
def iterator.decrTimes {P : Type} (d : R2PointDeq P) : Nat → iterator → iterator
  | 0, it => it
  | n + 1, it => iterator.decrTimes d n (it.decr d)

/-- The first three calls of the scenario of capacity 4: push back `(0,0)`,
`(1,1)`, push front `(-1,-1)`. -/
def scenarioOpening : List (Call (Int × Int)) :=
  [.pushBack (0, 0), .pushBack (1, 1), .pushFront (-1, -1)]

/-- The scenario of capacity 4 up to the full deque: the opening, `popBack()`,
then push front `(2,2)` and `(3,3)`. -/
def scenarioFilling : List (Call (Int × Int)) :=
  scenarioOpening ++ [.popBack, .pushFront (2, 2), .pushFront (3, 3)]

/-- A full deque of capacity 3 whose window wraps: the state after `pushBack
1`, `popFront`, `pushBack 10`, `pushBack 20`, `pushBack 30` on a new deque. -/
def full3 : R2PointDeq Nat :=
  { m_MaxElem := 3, m_Begin := 1, m_End := 0, m_NumElem := 3, m_Elements := [30, 10, 20] }

/-! ## Theorems -/

theorem emod_wrap {a c : Int} (h0 : 0 ≤ a) (h1 : a < 2 * c) :
    a % c = if a < c then a else a - c := by
  split
  · exact Int.emod_eq_of_lt h0 (by assumption)
  · have h2 : a = (a - c) + c := by omega
    rw [h2, Int.add_emod_self, Int.emod_eq_of_lt (by omega) (by omega)]
    omega

theorem inv_construct {P : Type} [Inhabited P] {c : Int} {d : R2PointDeq P}
    (hc : 1 ≤ c) (h : R2PointDeq.construct c = some d) : Inv d ∧ d.m_MaxElem = c := by
  unfold R2PointDeq.construct at h
  rw [if_neg (by omega)] at h
  cases h
  simp [Inv]
  omega

theorem inv_pushFront {P : Type} {d : R2PointDeq P} (h : Inv d) (p : P) :
    Inv (d.pushFront p).2 := by
  unfold Inv at h
  unfold R2PointDeq.pushFront
  split
  · exact h
  · simp only [Inv, R2PointDeq.store, R2PointDeq.prevIndex, List.length_set]
    split <;> omega

theorem inv_pushBack {P : Type} {d : R2PointDeq P} (h : Inv d) (p : P) :
    Inv (d.pushBack p).2 := by
  unfold Inv at h
  unfold R2PointDeq.pushBack
  split
  · exact h
  · simp only [Inv, R2PointDeq.store, R2PointDeq.nextIndex, List.length_set]
    split <;> omega

theorem inv_popFront {P : Type} [Inhabited P] {d : R2PointDeq P} (h : Inv d) :
    Inv d.popFront.2 := by
  unfold Inv at h
  unfold R2PointDeq.popFront
  split
  · exact h
  · simp only [Inv, R2PointDeq.nextIndex]
    split <;> omega

theorem inv_popBack {P : Type} [Inhabited P] {d : R2PointDeq P} (h : Inv d) :
    Inv d.popBack.2 := by
  unfold Inv at h
  unfold R2PointDeq.popBack
  split
  · exact h
  · simp only [Inv, R2PointDeq.prevIndex]
    split <;> omega

theorem inv_clear {P : Type} {d : R2PointDeq P} (h : Inv d) : Inv d.clear := by
  unfold Inv at h
  simp only [Inv, R2PointDeq.clear]
  omega

theorem getD_set_same {P : Type} (xs : List P) (i : Nat) (x dflt : P) (h : i < xs.length) :
    (xs.set i x).getD i dflt = x := by
  simp [List.getD_eq_getElem?_getD, List.getElem?_set, h]

theorem getD_set_other {P : Type} (xs : List P) (i j : Nat) (x dflt : P) (h : i ≠ j) :
    (xs.set i x).getD j dflt = xs.getD j dflt := by
  simp [List.getD_eq_getElem?_getD, List.getElem?_set, h]

theorem contents_pushFront {P : Type} [Inhabited P] {d : R2PointDeq P} (h : Inv d)
    (hlt : d.m_NumElem < d.m_MaxElem) (x : P) :
    (d.pushFront x).2.contents = x :: d.contents := by
  obtain ⟨h1, h2, h3, h4, h5, h6, h7, h8, h9⟩ := h
  unfold R2PointDeq.pushFront
  rw [if_neg (by omega)]
  simp only [R2PointDeq.contents, R2PointDeq.store, R2PointDeq.elem]
  have hn : (d.m_NumElem + 1).toNat = d.m_NumElem.toNat + 1 := by omega
  rw [hn, List.range_succ_eq_map, List.map_cons, List.map_map]
  have hb : 0 ≤ d.prevIndex d.m_Begin ∧ d.prevIndex d.m_Begin < d.m_MaxElem ∧
      (d.prevIndex d.m_Begin = d.m_Begin - 1 ∨
       d.prevIndex d.m_Begin = d.m_Begin - 1 + d.m_MaxElem) := by
    unfold R2PointDeq.prevIndex
    split <;> omega
  obtain ⟨hb1, hb2, hb3⟩ := hb
  congr 1
  · have e0 : (d.prevIndex d.m_Begin + ((0 : Nat) : Int)) % d.m_MaxElem = d.prevIndex d.m_Begin := by
      rw [Nat.cast_zero, add_zero]
      exact Int.emod_eq_of_lt hb1 hb2
    rw [e0]
    exact getD_set_same _ _ _ _ (by omega)
  · apply List.map_congr_left
    intro p hp
    rw [List.mem_range] at hp
    simp only [Function.comp]
    have hp2 : (p : Int) < d.m_NumElem := by omega
    rw [emod_wrap (a := d.prevIndex d.m_Begin + ((p + 1 : Nat) : Int)) (by omega) (by push_cast; omega),
      emod_wrap (a := d.m_Begin + (p : Int)) (by omega) (by omega)]
    push_cast
    have key : (if d.prevIndex d.m_Begin + ((p : Int) + 1) < d.m_MaxElem
          then d.prevIndex d.m_Begin + ((p : Int) + 1)
          else d.prevIndex d.m_Begin + ((p : Int) + 1) - d.m_MaxElem) =
        (if d.m_Begin + (p : Int) < d.m_MaxElem then d.m_Begin + (p : Int)
          else d.m_Begin + (p : Int) - d.m_MaxElem) := by
      split <;> split <;> omega
    rw [key]
    apply getD_set_other
    split <;> omega

theorem contents_pushBack {P : Type} [Inhabited P] {d : R2PointDeq P} (h : Inv d)
    (hlt : d.m_NumElem < d.m_MaxElem) (x : P) :
    (d.pushBack x).2.contents = d.contents ++ [x] := by
  obtain ⟨h1, h2, h3, h4, h5, h6, h7, h8, h9⟩ := h
  unfold R2PointDeq.pushBack
  rw [if_neg (by omega)]
  simp only [R2PointDeq.contents, R2PointDeq.store, R2PointDeq.elem]
  have hn : (d.m_NumElem + 1).toNat = d.m_NumElem.toNat + 1 := by omega
  rw [hn, List.range_succ, List.map_append, List.map_singleton]
  have he : 0 ≤ d.nextIndex d.m_End ∧ d.nextIndex d.m_End < d.m_MaxElem ∧
      (d.nextIndex d.m_End = d.m_End + 1 ∨
       d.nextIndex d.m_End = d.m_End + 1 - d.m_MaxElem) := by
    unfold R2PointDeq.nextIndex
    split <;> omega
  obtain ⟨he1, he2, he3⟩ := he
  congr 1
  · apply List.map_congr_left
    intro p hp
    rw [List.mem_range] at hp
    have hp2 : (p : Int) < d.m_NumElem := by omega
    rw [emod_wrap (a := d.m_Begin + (p : Int)) (by omega) (by omega)]
    apply getD_set_other
    split <;> omega
  · have hcast : ((d.m_NumElem.toNat : Nat) : Int) = d.m_NumElem := by omega
    rw [hcast, emod_wrap (a := d.m_Begin + d.m_NumElem) (by omega) (by omega)]
    have key : (if d.m_Begin + d.m_NumElem < d.m_MaxElem then d.m_Begin + d.m_NumElem
        else d.m_Begin + d.m_NumElem - d.m_MaxElem) = d.nextIndex d.m_End := by
      split <;> omega
    rw [key]
    congr 1
    exact getD_set_same _ _ _ _ (by omega)

theorem contents_popFront {P : Type} [Inhabited P] {d : R2PointDeq P} (h : Inv d)
    (hpos : 0 < d.m_NumElem) :
    d.popFront.1 = .ok (d.elem d.m_Begin) ∧
    d.contents = d.elem d.m_Begin :: d.popFront.2.contents := by
  obtain ⟨h1, h2, h3, h4, h5, h6, h7, h8, h9⟩ := h
  unfold R2PointDeq.popFront
  rw [if_neg (by omega)]
  refine ⟨rfl, ?_⟩
  simp only [R2PointDeq.contents, R2PointDeq.elem]
  have hn : d.m_NumElem.toNat = (d.m_NumElem - 1).toNat + 1 := by omega
  rw [hn, List.range_succ_eq_map, List.map_cons, List.map_map]
  have hb : d.nextIndex d.m_Begin = d.m_Begin + 1 ∨
       d.nextIndex d.m_Begin = d.m_Begin + 1 - d.m_MaxElem := by
    unfold R2PointDeq.nextIndex
    split <;> omega
  have hb0 : 0 ≤ d.nextIndex d.m_Begin ∧ d.nextIndex d.m_Begin < d.m_MaxElem := by
    unfold R2PointDeq.nextIndex
    split <;> omega
  congr 1
  · rw [Nat.cast_zero, add_zero, Int.emod_eq_of_lt h3 h4]
  · apply List.map_congr_left
    intro p hp
    rw [List.mem_range] at hp
    simp only [Function.comp]
    have hp2 : (p : Int) < d.m_NumElem - 1 := by omega
    rw [emod_wrap (a := d.nextIndex d.m_Begin + (p : Int)) (by omega) (by omega),
      emod_wrap (a := d.m_Begin + ((p.succ : Nat) : Int)) (by omega) (by push_cast; omega)]
    push_cast
    congr 2
    split <;> split <;> omega

theorem contents_popBack {P : Type} [Inhabited P] {d : R2PointDeq P} (h : Inv d)
    (hpos : 0 < d.m_NumElem) :
    d.popBack.1 = .ok (d.elem d.m_End) ∧
    d.contents = d.popBack.2.contents ++ [d.elem d.m_End] := by
  obtain ⟨h1, h2, h3, h4, h5, h6, h7, h8, h9⟩ := h
  unfold R2PointDeq.popBack
  rw [if_neg (by omega)]
  refine ⟨rfl, ?_⟩
  simp only [R2PointDeq.contents, R2PointDeq.elem]
  have hn : d.m_NumElem.toNat = (d.m_NumElem - 1).toNat + 1 := by omega
  rw [hn, List.range_succ, List.map_append, List.map_singleton]
  congr 2
  have hcast : (((d.m_NumElem - 1).toNat : Nat) : Int) = d.m_NumElem - 1 := by omega
  rw [hcast, emod_wrap (a := d.m_Begin + (d.m_NumElem - 1)) (by omega) (by omega)]
  congr 2
  split <;> omega

theorem inv_call {P : Type} [Inhabited P] {d : R2PointDeq P} (h : Inv d) (c : Call P) :
    Inv (d.call c) := by
  cases c with
  | pushFront p => exact inv_pushFront h p
  | pushBack p => exact inv_pushBack h p
  | popFront => exact inv_popFront h
  | popBack => exact inv_popBack h
  | clear => exact inv_clear h

theorem inv_calls {P : Type} [Inhabited P] (cs : List (Call P)) :
    ∀ {d : R2PointDeq P}, Inv d → Inv (d.calls cs) := by
  induction cs with
  | nil => intro d h; exact h
  | cons c cs ih => intro d h; exact ih (inv_call h c)

theorem cap_call {P : Type} [Inhabited P] (d : R2PointDeq P) (c : Call P) :
    (d.call c).m_MaxElem = d.m_MaxElem := by
  cases c <;>
    simp only [R2PointDeq.call, R2PointDeq.pushFront, R2PointDeq.pushBack, R2PointDeq.popFront,
      R2PointDeq.popBack, R2PointDeq.clear, R2PointDeq.store] <;>
    first | rfl | (split <;> rfl)

theorem cap_calls {P : Type} [Inhabited P] (cs : List (Call P)) :
    ∀ d : R2PointDeq P, (d.calls cs).m_MaxElem = d.m_MaxElem := by
  induction cs with
  | nil => intro d; rfl
  | cons c cs ih => intro d; exact (ih (d.call c)).trans (cap_call d c)

/-- A deque of capacity zero stays empty: every push is refused. -/
theorem zero_call {P : Type} [Inhabited P] {d : R2PointDeq P}
    (h : d.m_MaxElem = 0 ∧ d.m_NumElem = 0) (c : Call P) :
    (d.call c).m_MaxElem = 0 ∧ (d.call c).m_NumElem = 0 := by
  obtain ⟨h1, h2⟩ := h
  cases c <;>
    simp only [R2PointDeq.call, R2PointDeq.pushFront, R2PointDeq.pushBack, R2PointDeq.popFront,
      R2PointDeq.popBack, R2PointDeq.clear, R2PointDeq.store] <;>
    first | exact ⟨h1, trivial⟩ | exact ⟨h1, rfl⟩ | (split <;> first | exact ⟨h1, h2⟩ | omega)

theorem zero_calls {P : Type} [Inhabited P] (cs : List (Call P)) :
    ∀ {d : R2PointDeq P}, d.m_MaxElem = 0 ∧ d.m_NumElem = 0 →
      (d.calls cs).m_MaxElem = 0 ∧ (d.calls cs).m_NumElem = 0 := by
  induction cs with
  | nil => intro d h; exact h
  | cons c cs ih => intro d h; exact ih (zero_call h c)

theorem reachableFrom_inv {P : Type} [Inhabited P] {c : Int} {d : R2PointDeq P}
    (hc : 1 ≤ c) (h : ReachableFrom c d) : Inv d ∧ d.m_MaxElem = c := by
  obtain ⟨d0, h0, cs, rfl⟩ := h
  obtain ⟨hi, hm⟩ := inv_construct hc h0
  exact ⟨inv_calls cs hi, (cap_calls cs d0).trans hm⟩

/-- A reachable state either has a capacity of at least one and satisfies the
representation invariant, or is the empty deque of capacity zero. -/
theorem reachable_cases {P : Type} [Inhabited P] {d : R2PointDeq P} (h : Reachable d) :
    Inv d ∨ (d.m_MaxElem = 0 ∧ d.m_NumElem = 0) := by
  obtain ⟨c, hr⟩ := h
  by_cases hc : 1 ≤ c
  · exact Or.inl (reachableFrom_inv hc hr).1
  · obtain ⟨d0, h0, cs, rfl⟩ := hr
    right
    apply zero_calls
    unfold R2PointDeq.construct at h0
    split at h0
    · cases h0
    · cases h0
      exact ⟨by simp only; omega, rfl⟩

theorem inv_specInvariant {P : Type} {d : R2PointDeq P} (h : Inv d) : SpecInvariant d := by
  obtain ⟨h1, h2, h3, h4, h5, h6, h7, h8, h9⟩ := h
  refine ⟨h7, h8, h3, h4, h5, h6, ?_⟩
  intro hpos
  rw [emod_wrap (a := d.m_Begin + d.m_NumElem - 1) (by omega) (by omega)]
  split <;> omega

theorem reachable_wrapped3 : Reachable wrapped3 :=
  ⟨3, _, rfl, [.pushFront 5, .pushBack 7], by decide⟩

theorem reachable_full2 : Reachable full2 :=
  ⟨2, _, rfl, [.pushBack 4, .pushFront 6], by decide⟩

theorem reachable_drained3 : ReachableFrom 3 drained3 :=
  ⟨_, rfl, [.pushBack 1, .popFront], by decide⟩

/-- C1: for every capacity `c >= 1` and every finite sequence of pushFront,
pushBack, popFront, popBack and clear calls (failing ones included) made on the
deque `R2PointDeq(c)` constructs, construction succeeds and the resulting state
has capacity `c`, `0 <= count <= capacity`, both indices in `[0, capacity)`, and
`endIndex == (beginIndex + count - 1) mod capacity` whenever `count > 0`. -/
theorem C1_invariant_after_calls {P : Type} [Inhabited P] (c : Int) (hc : 1 ≤ c)
    (cs : List (Call P)) :
    ∃ d0 : R2PointDeq P, R2PointDeq.construct c = some d0 ∧
      (d0.calls cs).m_MaxElem = c ∧ SpecInvariant (d0.calls cs) := by
  have h0 : ∃ d0 : R2PointDeq P, R2PointDeq.construct c = some d0 := by
    unfold R2PointDeq.construct
    rw [if_neg (by omega)]
    exact ⟨_, rfl⟩
  obtain ⟨d0, h0⟩ := h0
  obtain ⟨hi, hm⟩ := reachableFrom_inv hc ⟨d0, h0, cs, rfl⟩
  exact ⟨d0, h0, hm, inv_specInvariant hi⟩

/-- C1 at capacity 2 with a sequence that overflows, underflows and clears. -/
theorem C1_invariant_after_calls_witness :
    (1 : Int) ≤ 2 ∧
    ∃ d0 : R2PointDeq Nat, R2PointDeq.construct 2 = some d0 ∧
      (d0.calls [.popBack, .pushFront 1, .pushFront 2, .pushBack 3, .popBack, .clear,
        .pushBack 4]).m_MaxElem = 2 ∧
      SpecInvariant (d0.calls [.popBack, .pushFront 1, .pushFront 2, .pushBack 3, .popBack,
        .clear, .pushBack 4]) :=
  ⟨by decide, C1_invariant_after_calls 2 (by decide)
    [.popBack, .pushFront 1, .pushFront 2, .pushBack 3, .popBack, .clear, .pushBack 4]⟩

/-- C2: in every reachable state with `count < capacity`, `pushFront(x)` succeeds
and the new logical contents are `x` followed by the old contents, `pushBack(x)`
succeeds and the new logical contents are the old contents followed by `x`; in
both cases the count grows by exactly one. -/
theorem C2_push_contents {P : Type} [Inhabited P] (d : R2PointDeq P) (hr : Reachable d)
    (hlt : d.m_NumElem < d.m_MaxElem) (x : P) :
    ((d.pushFront x).1 = .ok () ∧
      (d.pushFront x).2.contents = x :: d.contents ∧
      (d.pushFront x).2.m_NumElem = d.m_NumElem + 1) ∧
    ((d.pushBack x).1 = .ok () ∧
      (d.pushBack x).2.contents = d.contents ++ [x] ∧
      (d.pushBack x).2.m_NumElem = d.m_NumElem + 1) := by
  have hi : Inv d := by
    rcases reachable_cases hr with h | h
    · exact h
    · omega
  refine ⟨⟨?_, contents_pushFront hi hlt x, ?_⟩, ⟨?_, contents_pushBack hi hlt x, ?_⟩⟩
  · unfold R2PointDeq.pushFront; rw [if_neg (by omega)]
  · unfold R2PointDeq.pushFront; rw [if_neg (by omega)]; rfl
  · unfold R2PointDeq.pushBack; rw [if_neg (by omega)]
  · unfold R2PointDeq.pushBack; rw [if_neg (by omega)]; rfl

/-- C2 on a wrapped deque of capacity 3 holding two points. -/
theorem C2_push_contents_witness :
    Reachable wrapped3 ∧ wrapped3.m_NumElem < wrapped3.m_MaxElem ∧
    ((wrapped3.pushFront 9).1 = .ok () ∧
      (wrapped3.pushFront 9).2.contents = 9 :: wrapped3.contents ∧
      (wrapped3.pushFront 9).2.m_NumElem = wrapped3.m_NumElem + 1) ∧
    ((wrapped3.pushBack 9).1 = .ok () ∧
      (wrapped3.pushBack 9).2.contents = wrapped3.contents ++ [9] ∧
      (wrapped3.pushBack 9).2.m_NumElem = wrapped3.m_NumElem + 1) :=
  ⟨reachable_wrapped3, by decide, C2_push_contents wrapped3 reachable_wrapped3 (by decide) 9⟩

/-- C3: in every reachable state with `count > 0`, `popFront()` returns the
first element of the logical contents and leaves the rest in order, `popBack()`
returns the last element and leaves the preceding ones in order; in both cases
the count drops by exactly one. -/
theorem C3_pop_contents {P : Type} [Inhabited P] (d : R2PointDeq P) (hr : Reachable d)
    (hpos : 0 < d.m_NumElem) :
    (∃ r : P, d.popFront.1 = .ok r ∧ d.contents = r :: d.popFront.2.contents ∧
      d.popFront.2.m_NumElem = d.m_NumElem - 1) ∧
    (∃ r : P, d.popBack.1 = .ok r ∧ d.contents = d.popBack.2.contents ++ [r] ∧
      d.popBack.2.m_NumElem = d.m_NumElem - 1) := by
  have hi : Inv d := by
    rcases reachable_cases hr with h | h
    · exact h
    · omega
  refine ⟨⟨_, (contents_popFront hi hpos).1, (contents_popFront hi hpos).2, ?_⟩,
    ⟨_, (contents_popBack hi hpos).1, (contents_popBack hi hpos).2, ?_⟩⟩
  · unfold R2PointDeq.popFront; rw [if_neg (by omega)]
  · unfold R2PointDeq.popBack; rw [if_neg (by omega)]

/-- C3 on a full deque of capacity 2. -/
theorem C3_pop_contents_witness :
    Reachable full2 ∧ 0 < full2.m_NumElem ∧
    (∃ r : Nat, full2.popFront.1 = .ok r ∧ full2.contents = r :: full2.popFront.2.contents ∧
      full2.popFront.2.m_NumElem = full2.m_NumElem - 1) ∧
    (∃ r : Nat, full2.popBack.1 = .ok r ∧ full2.contents = full2.popBack.2.contents ++ [r] ∧
      full2.popBack.2.m_NumElem = full2.m_NumElem - 1) :=
  ⟨reachable_full2, by decide, C3_pop_contents full2 reachable_full2 (by decide)⟩

theorem nextIndex_wrap {P : Type} (d : R2PointDeq P) (a : Int)
    (h0 : 0 ≤ a) (h1 : a < 2 * d.m_MaxElem - 1) :
    d.nextIndex (a % d.m_MaxElem) = (a + 1) % d.m_MaxElem := by
  rw [emod_wrap h0 (by omega), emod_wrap (a := a + 1) (by omega) (by omega)]
  unfold R2PointDeq.nextIndex
  split <;> split <;> split <;> omega

/-- The loop started at logical position `j` with `m` elements still ahead:
it needs exactly `m` rounds and visits the slots of positions `j .. j+m-1`. -/
theorem traverseFrom_spec {P : Type} [Inhabited P] (d : R2PointDeq P) (h : Inv d) (self : Nat) :
    ∀ (m j fuel : Nat), j + m = d.m_NumElem.toNat →
      traverseFrom d self fuel
          (⟨self, (d.m_Begin + (j : Int)) % d.m_MaxElem, (j : Int)⟩ : iterator) =
        if m ≤ fuel then
          some (.ok ((List.range' j m).map
            (fun (p : Nat) => d.elem ((d.m_Begin + (p : Int)) % d.m_MaxElem))))
        else none := by
  obtain ⟨h1, h2, h3, h4, h5, h6, h7, h8, h9⟩ := h
  intro m
  induction m with
  | zero =>
    intro j fuel hj
    have hne : iterator.ne (⟨self, (d.m_Begin + (j : Int)) % d.m_MaxElem, (j : Int)⟩ : iterator) (d.end_ self) = false := by
      simp only [iterator.ne, iterator.eq, R2PointDeq.end_, R2PointDeq.size]
      simp
      omega
    cases fuel with
    | zero => simp [traverseFrom, hne]
    | succ f => simp [traverseFrom, hne]
  | succ m ih =>
    intro j fuel hj
    have hne : iterator.ne (⟨self, (d.m_Begin + (j : Int)) % d.m_MaxElem, (j : Int)⟩ : iterator) (d.end_ self) = true := by
      simp only [iterator.ne, iterator.eq, R2PointDeq.end_, R2PointDeq.size]
      simp
      omega
    cases fuel with
    | zero => simp [traverseFrom, hne]
    | succ f =>
      have hnext : d.nextIndex ((d.m_Begin + (j : Int)) % d.m_MaxElem) =
          (d.m_Begin + ((j + 1 : Nat) : Int)) % d.m_MaxElem := by
        rw [nextIndex_wrap d _ (by omega) (by omega)]
        push_cast
        rw [add_assoc]
      have hstep := ih (j + 1) f (by omega)
      rw [traverseFrom, if_pos hne]
      simp only [iterator.deref, iterator.incr, R2PointDeq.size]
      rw [if_neg (by omega), hnext]
      have hpos : ((j : Int) + 1) = ((j + 1 : Nat) : Int) := by push_cast; rfl
      rw [hpos, hstep, List.range'_succ, List.map_cons]
      by_cases hmf : m ≤ f
      · simp [hmf]
      · simp [hmf]

/-- The traversal `begin() .. end()` of a deque satisfying the invariant needs
exactly `count` rounds and yields the logical contents. -/
theorem traverse_spec {P : Type} [Inhabited P] (d : R2PointDeq P) (h : Inv d) (self fuel : Nat) :
    d.traverse self fuel =
      if d.m_NumElem.toNat ≤ fuel then some (.ok d.contents) else none := by
  have hs := traverseFrom_spec d h self d.m_NumElem.toNat 0 fuel (by omega)
  obtain ⟨h1, h2, h3, h4, h5, h6, h7, h8, h9⟩ := h
  unfold R2PointDeq.traverse R2PointDeq.begin R2PointDeq.contents
  rw [List.range_eq_range']
  rw [Nat.cast_zero, add_zero, Int.emod_eq_of_lt h3 h4] at hs
  exact hs

theorem calls_pushBack {P : Type} [Inhabited P] (ps : List P) :
    ∀ d : R2PointDeq P, Inv d → d.m_NumElem + (ps.length : Int) ≤ d.m_MaxElem →
      (d.calls (ps.map Call.pushBack)).contents = d.contents ++ ps ∧
      (d.calls (ps.map Call.pushBack)).m_NumElem = d.m_NumElem + (ps.length : Int) := by
  induction ps with
  | nil => intro d _ _; simp [R2PointDeq.calls]
  | cons p ps ih =>
    intro d hi hlen
    rw [List.length_cons] at hlen
    push_cast at hlen
    have hlt : d.m_NumElem < d.m_MaxElem := by omega
    have hn : (d.pushBack p).2.m_NumElem = d.m_NumElem + 1 := by
      unfold R2PointDeq.pushBack; rw [if_neg (by omega)]; rfl
    have hm : (d.pushBack p).2.m_MaxElem = d.m_MaxElem := cap_call d (.pushBack p)
    obtain ⟨ih1, ih2⟩ := ih (d.pushBack p).2 (inv_pushBack hi p) (by omega)
    simp only [List.map_cons, R2PointDeq.calls, R2PointDeq.call, List.length_cons]
    rw [ih1, ih2, contents_pushBack hi hlt p, hn]
    refine ⟨by simp, ?_⟩
    push_cast
    omega

theorem calls_pushFront {P : Type} [Inhabited P] (ps : List P) :
    ∀ d : R2PointDeq P, Inv d → d.m_NumElem + (ps.length : Int) ≤ d.m_MaxElem →
      (d.calls (ps.map Call.pushFront)).contents = ps.reverse ++ d.contents ∧
      (d.calls (ps.map Call.pushFront)).m_NumElem = d.m_NumElem + (ps.length : Int) := by
  induction ps with
  | nil => intro d _ _; simp [R2PointDeq.calls]
  | cons p ps ih =>
    intro d hi hlen
    rw [List.length_cons] at hlen
    push_cast at hlen
    have hlt : d.m_NumElem < d.m_MaxElem := by omega
    have hn : (d.pushFront p).2.m_NumElem = d.m_NumElem + 1 := by
      unfold R2PointDeq.pushFront; rw [if_neg (by omega)]; rfl
    have hm : (d.pushFront p).2.m_MaxElem = d.m_MaxElem := cap_call d (.pushFront p)
    obtain ⟨ih1, ih2⟩ := ih (d.pushFront p).2 (inv_pushFront hi p) (by omega)
    simp only [List.map_cons, R2PointDeq.calls, R2PointDeq.call, List.length_cons]
    rw [ih1, ih2, contents_pushFront hi hlt p, hn]
    refine ⟨by simp, ?_⟩
    push_cast
    omega

theorem contents_of_empty {P : Type} [Inhabited P] (d : R2PointDeq P) (h : d.m_NumElem = 0) :
    d.contents = [] := by
  simp [R2PointDeq.contents, h]

/-- C4: for every capacity `c >= 1`, every empty state reachable from
`R2PointDeq(c)` and every list of `k <= c` points: after the `k` pushBack calls
the loop from `begin()` to `end()` needs exactly `k` rounds (it ends within
`fuel` rounds iff `k <= fuel`), throws nothing and yields the points in the
order pushed; after the `k` pushFront calls instead it yields them in the
reverse order.  `k == c` and wrapped windows are included. -/
theorem C4_traversal_order {P : Type} [Inhabited P] (c : Int) (hc : 1 ≤ c) (d : R2PointDeq P)
    (hr : ReachableFrom c d) (hempty : d.m_NumElem = 0) (ps : List P)
    (hk : (ps.length : Int) ≤ c) (self fuel : Nat) :
    (d.calls (ps.map Call.pushBack)).traverse self fuel =
        (if ps.length ≤ fuel then some (.ok ps) else none) ∧
    (d.calls (ps.map Call.pushFront)).traverse self fuel =
        (if ps.length ≤ fuel then some (.ok ps.reverse) else none) := by
  obtain ⟨hi, hm⟩ := reachableFrom_inv hc hr
  obtain ⟨b1, b2⟩ := calls_pushBack ps d hi (by omega)
  obtain ⟨f1, f2⟩ := calls_pushFront ps d hi (by omega)
  have e := contents_of_empty d hempty
  rw [traverse_spec _ (inv_calls _ hi), traverse_spec _ (inv_calls _ hi), b1, b2, f1, f2, e,
    hempty]
  simp

/-- C4 on an empty deque of capacity 3 whose indices sit mid-array, filled
completely, so that the window wraps; three rounds suffice. -/
theorem C4_traversal_order_witness :
    (1 : Int) ≤ 3 ∧ ReachableFrom 3 drained3 ∧ drained3.m_NumElem = 0 ∧
    (([10, 20, 30] : List Nat).length : Int) ≤ 3 ∧
    (drained3.calls (([10, 20, 30] : List Nat).map Call.pushBack)).traverse 0 3 =
        (if ([10, 20, 30] : List Nat).length ≤ 3 then some (.ok [10, 20, 30]) else none) ∧
    (drained3.calls (([10, 20, 30] : List Nat).map Call.pushFront)).traverse 0 3 =
        (if ([10, 20, 30] : List Nat).length ≤ 3 then some (.ok [10, 20, 30].reverse)
          else none) :=
  ⟨by decide, reachable_drained3, rfl, by decide,
    C4_traversal_order 3 (by decide) drained3 reachable_drained3 rfl [10, 20, 30] (by decide) 0 3⟩

/-- C5: in every reachable state with `count < capacity`, `pushBack(p)`
succeeds, the `popBack()` that follows returns `p`, and the count is then what
it was before the push. -/
theorem C5_pushBack_popBack {P : Type} [Inhabited P] (d : R2PointDeq P) (hr : Reachable d)
    (hlt : d.m_NumElem < d.m_MaxElem) (p : P) :
    (d.pushBack p).1 = .ok () ∧
    (d.pushBack p).2.popBack.1 = .ok p ∧
    (d.pushBack p).2.popBack.2.m_NumElem = d.m_NumElem := by
  have hi : Inv d := by
    rcases reachable_cases hr with h | h
    · exact h
    · omega
  have hn0 : 0 ≤ d.m_NumElem := hi.2.2.2.2.2.2.1
  have hn : (d.pushBack p).2.m_NumElem = d.m_NumElem + 1 := by
    unfold R2PointDeq.pushBack; rw [if_neg (by omega)]; rfl
  have hok : (d.pushBack p).1 = .ok () := by
    unfold R2PointDeq.pushBack; rw [if_neg (by omega)]
  obtain ⟨q1, q2⟩ := contents_popBack (inv_pushBack hi p) (by omega)
  have hc := contents_pushBack hi hlt p
  rw [q2] at hc
  have hinj := List.append_inj' hc rfl
  have hp : (d.pushBack p).2.elem (d.pushBack p).2.m_End = p := by
    simpa using hinj.2
  refine ⟨hok, ?_, ?_⟩
  · rw [q1, hp]
  · unfold R2PointDeq.popBack
    rw [if_neg (by omega)]
    simp only
    omega

/-- C5 on a wrapped deque of capacity 3 holding two points. -/
theorem C5_pushBack_popBack_witness :
    Reachable wrapped3 ∧ wrapped3.m_NumElem < wrapped3.m_MaxElem ∧
    (wrapped3.pushBack 9).1 = .ok () ∧
    (wrapped3.pushBack 9).2.popBack.1 = .ok 9 ∧
    (wrapped3.pushBack 9).2.popBack.2.m_NumElem = wrapped3.m_NumElem :=
  ⟨reachable_wrapped3, by decide,
    C5_pushBack_popBack wrapped3 reachable_wrapped3 (by decide) 9⟩

/-- C6: in every reachable state with `count < capacity`, `pushFront(p)`
succeeds, the `popFront()` that follows returns `p`, and the count is then what
it was before the push. -/
theorem C6_pushFront_popFront {P : Type} [Inhabited P] (d : R2PointDeq P) (hr : Reachable d)
    (hlt : d.m_NumElem < d.m_MaxElem) (p : P) :
    (d.pushFront p).1 = .ok () ∧
    (d.pushFront p).2.popFront.1 = .ok p ∧
    (d.pushFront p).2.popFront.2.m_NumElem = d.m_NumElem := by
  have hi : Inv d := by
    rcases reachable_cases hr with h | h
    · exact h
    · omega
  have hn0 : 0 ≤ d.m_NumElem := hi.2.2.2.2.2.2.1
  have hn : (d.pushFront p).2.m_NumElem = d.m_NumElem + 1 := by
    unfold R2PointDeq.pushFront; rw [if_neg (by omega)]; rfl
  have hok : (d.pushFront p).1 = .ok () := by
    unfold R2PointDeq.pushFront; rw [if_neg (by omega)]
  obtain ⟨q1, q2⟩ := contents_popFront (inv_pushFront hi p) (by omega)
  have hc := contents_pushFront hi hlt p
  rw [q2] at hc
  have hp : (d.pushFront p).2.elem (d.pushFront p).2.m_Begin = p := (List.cons.inj hc).1
  refine ⟨hok, ?_, ?_⟩
  · rw [q1, hp]
  · unfold R2PointDeq.popFront
    rw [if_neg (by omega)]
    simp only
    omega

/-- C6 on a wrapped deque of capacity 3 holding two points. -/
theorem C6_pushFront_popFront_witness :
    Reachable wrapped3 ∧ wrapped3.m_NumElem < wrapped3.m_MaxElem ∧
    (wrapped3.pushFront 9).1 = .ok () ∧
    (wrapped3.pushFront 9).2.popFront.1 = .ok 9 ∧
    (wrapped3.pushFront 9).2.popFront.2.m_NumElem = wrapped3.m_NumElem :=
  ⟨reachable_wrapped3, by decide,
    C6_pushFront_popFront wrapped3 reachable_wrapped3 (by decide) 9⟩

theorem calls_append {P : Type} [Inhabited P] (as bs : List (Call P)) :
    ∀ d : R2PointDeq P, d.calls (as ++ bs) = (d.calls as).calls bs := by
  induction as with
  | nil => intro d; rfl
  | cons a as ih => intro d; exact ih (d.call a)

theorem anyThrows_append {P : Type} [Inhabited P] (as bs : List (Call P)) :
    ∀ d : R2PointDeq P,
      d.anyThrows (as ++ bs) = (d.anyThrows as || (d.calls as).anyThrows bs) := by
  induction as with
  | nil => intro d; simp [R2PointDeq.anyThrows, R2PointDeq.calls]
  | cons a as ih =>
    intro d
    show (d.callThrows a || (d.call a).anyThrows (as ++ bs)) =
      ((d.callThrows a || (d.call a).anyThrows as) || ((d.call a).calls as).anyThrows bs)
    rw [ih, Bool.or_assoc]

/-- Pushes that fit into the free room all succeed and each adds one to the
count. -/
theorem pushes_fit {P : Type} [Inhabited P] (cs : List (Call P)) :
    ∀ d : R2PointDeq P, (∀ c ∈ cs, c.isPush = true) →
      d.m_NumElem + (cs.length : Int) ≤ d.m_MaxElem →
      d.anyThrows cs = false ∧ (d.calls cs).m_NumElem = d.m_NumElem + (cs.length : Int) := by
  induction cs with
  | nil => intro d _ _; simp [R2PointDeq.anyThrows, R2PointDeq.calls]
  | cons c cs ih =>
    intro d hall hlen
    rw [List.length_cons] at hlen
    push_cast at hlen
    have hc := hall c (List.mem_cons_self c cs)
    have hrest : ∀ c' ∈ cs, c'.isPush = true := fun c' h' => hall c' (List.mem_cons_of_mem c h')
    have hm := cap_call d c
    have hstep : d.callThrows c = false ∧ (d.call c).m_NumElem = d.m_NumElem + 1 := by
      cases c with
      | pushFront p =>
        simp only [R2PointDeq.callThrows, R2PointDeq.call, R2PointDeq.pushFront]
        rw [if_neg (by omega)]
        exact ⟨rfl, rfl⟩
      | pushBack p =>
        simp only [R2PointDeq.callThrows, R2PointDeq.call, R2PointDeq.pushBack]
        rw [if_neg (by omega)]
        exact ⟨rfl, rfl⟩
      | popFront => cases hc
      | popBack => cases hc
      | clear => cases hc
    obtain ⟨i1, i2⟩ := ih (d.call c) hrest (by omega)
    simp only [R2PointDeq.anyThrows, R2PointDeq.calls, List.length_cons, hstep.1, i1, i2, hstep.2]
    refine ⟨rfl, ?_⟩
    push_cast
    omega

/-- Pops that do not outnumber the elements all succeed and each takes one
from the count. -/
theorem pops_fit {P : Type} [Inhabited P] (cs : List (Call P)) :
    ∀ d : R2PointDeq P, (∀ c ∈ cs, c.isPop = true) →
      (cs.length : Int) ≤ d.m_NumElem →
      d.anyThrows cs = false ∧ (d.calls cs).m_NumElem = d.m_NumElem - (cs.length : Int) := by
  induction cs with
  | nil => intro d _ _; simp [R2PointDeq.anyThrows, R2PointDeq.calls]
  | cons c cs ih =>
    intro d hall hlen
    rw [List.length_cons] at hlen
    push_cast at hlen
    have hc := hall c (List.mem_cons_self c cs)
    have hrest : ∀ c' ∈ cs, c'.isPop = true := fun c' h' => hall c' (List.mem_cons_of_mem c h')
    have hstep : d.callThrows c = false ∧ (d.call c).m_NumElem = d.m_NumElem - 1 := by
      cases c with
      | popFront =>
        simp only [R2PointDeq.callThrows, R2PointDeq.call, R2PointDeq.popFront]
        rw [if_neg (by omega)]
        exact ⟨rfl, rfl⟩
      | popBack =>
        simp only [R2PointDeq.callThrows, R2PointDeq.call, R2PointDeq.popBack]
        rw [if_neg (by omega)]
        exact ⟨rfl, rfl⟩
      | pushFront p => cases hc
      | pushBack p => cases hc
      | clear => cases hc
    obtain ⟨i1, i2⟩ := ih (d.call c) hrest (by omega)
    simp only [R2PointDeq.anyThrows, R2PointDeq.calls, List.length_cons, hstep.1, i1, i2, hstep.2]
    refine ⟨rfl, ?_⟩
    push_cast
    omega

/-- C7: for every capacity `c >= 1`, on the deque `R2PointDeq(c)` constructs,
any `c` pushes (each a pushFront or a pushBack) followed by any `c` pops (each a
popFront or a popBack) run without any call throwing, and leave `count == 0`. -/
theorem C7_fill_then_drain {P : Type} [Inhabited P] (c : Int) (hc : 1 ≤ c)
    (pushes pops : List (Call P))
    (hpush : ∀ x ∈ pushes, x.isPush = true) (hpushes : (pushes.length : Int) = c)
    (hpop : ∀ x ∈ pops, x.isPop = true) (hpops : (pops.length : Int) = c) :
    ∃ d0 : R2PointDeq P, R2PointDeq.construct c = some d0 ∧
      d0.anyThrows (pushes ++ pops) = false ∧
      (d0.calls (pushes ++ pops)).m_NumElem = 0 := by
  have h0 : ∃ d0 : R2PointDeq P, R2PointDeq.construct c = some d0 ∧ d0.m_MaxElem = c ∧
      d0.m_NumElem = 0 := by
    unfold R2PointDeq.construct
    rw [if_neg (by omega)]
    exact ⟨_, rfl, rfl, rfl⟩
  obtain ⟨d0, h0, hm, hn⟩ := h0
  obtain ⟨a1, a2⟩ := pushes_fit pushes d0 hpush (by omega)
  obtain ⟨b1, b2⟩ := pops_fit pops (d0.calls pushes) hpop (by omega)
  refine ⟨d0, h0, ?_, ?_⟩
  · rw [anyThrows_append, a1, b1]; rfl
  · rw [calls_append, b2, a2]; omega

/-- C7 at capacity 2 with mixed ends. -/
theorem C7_fill_then_drain_witness :
    (1 : Int) ≤ 2 ∧
    (∀ x ∈ ([.pushFront 1, .pushBack 2] : List (Call Nat)), x.isPush = true) ∧
    ((([.pushFront 1, .pushBack 2] : List (Call Nat)).length : Int) = 2) ∧
    (∀ x ∈ ([.popBack, .popFront] : List (Call Nat)), x.isPop = true) ∧
    ((([.popBack, .popFront] : List (Call Nat)).length : Int) = 2) ∧
    ∃ d0 : R2PointDeq Nat, R2PointDeq.construct 2 = some d0 ∧
      d0.anyThrows ([.pushFront 1, .pushBack 2] ++ [.popBack, .popFront]) = false ∧
      (d0.calls ([.pushFront 1, .pushBack 2] ++ [.popBack, .popFront])).m_NumElem = 0 :=
  ⟨by decide, by decide, by decide, by decide, by decide,
    C7_fill_then_drain 2 (by decide) [.pushFront 1, .pushBack 2] [.popBack, .popFront]
      (by decide) (by decide) (by decide) (by decide)⟩

theorem reachable_calls {P : Type} [Inhabited P] {d : R2PointDeq P} (h : Reachable d)
    (cs : List (Call P)) : Reachable (d.calls cs) := by
  obtain ⟨c, d0, h0, cs0, rfl⟩ := h
  exact ⟨c, d0, h0, cs0 ++ cs, (calls_append cs0 cs d0).symm⟩

theorem reachable_count {P : Type} [Inhabited P] {d : R2PointDeq P} (h : Reachable d) :
    0 ≤ d.m_NumElem ∧ d.m_NumElem ≤ d.m_MaxElem := by
  rcases reachable_cases h with hi | hz
  · exact ⟨hi.2.2.2.2.2.2.1, hi.2.2.2.2.2.2.2.1⟩
  · omega

theorem push_outcome {P : Type} (d : R2PointDeq P) (hle : d.m_NumElem ≤ d.m_MaxElem) (p : P) :
    (((d.pushFront p).1 = .error .overflow ↔ d.m_NumElem = d.m_MaxElem) ∧
      ((d.pushFront p).1 = .error .overflow → (d.pushFront p).2 = d)) ∧
    (((d.pushBack p).1 = .error .overflow ↔ d.m_NumElem = d.m_MaxElem) ∧
      ((d.pushBack p).1 = .error .overflow → (d.pushBack p).2 = d)) := by
  unfold R2PointDeq.pushFront R2PointDeq.pushBack
  by_cases hfull : d.m_NumElem ≥ d.m_MaxElem
  · rw [if_pos hfull, if_pos hfull]
    exact ⟨⟨⟨fun _ => by omega, fun _ => rfl⟩, fun _ => rfl⟩,
      ⟨⟨fun _ => by omega, fun _ => rfl⟩, fun _ => rfl⟩⟩
  · rw [if_neg hfull, if_neg hfull]
    refine ⟨⟨⟨fun h => ?_, fun h => by omega⟩, fun h => ?_⟩,
      ⟨⟨fun h => ?_, fun h => by omega⟩, fun h => ?_⟩⟩ <;> cases h

/-- C8: in every reachable state, `pushFront(p)` and `pushBack(p)` throw the
overflow exception exactly when `count == capacity`, and the deque a throwing
push leaves behind is the deque it found (count, indices and every slot).  In
particular, once pushes have filled the free room (all of them succeed, so from
an empty deque these are `capacity` pushes), the count is the capacity and the
next push, at either end, throws and leaves the count at the capacity. -/
theorem C8_overflow {P : Type} [Inhabited P] (d : R2PointDeq P) (hr : Reachable d) (p : P)
    (pushes : List (Call P)) (hpush : ∀ x ∈ pushes, x.isPush = true)
    (hroom : (pushes.length : Int) = d.m_MaxElem - d.m_NumElem) :
    (((d.pushFront p).1 = .error .overflow ↔ d.m_NumElem = d.m_MaxElem) ∧
      ((d.pushFront p).1 = .error .overflow → (d.pushFront p).2 = d)) ∧
    (((d.pushBack p).1 = .error .overflow ↔ d.m_NumElem = d.m_MaxElem) ∧
      ((d.pushBack p).1 = .error .overflow → (d.pushBack p).2 = d)) ∧
    (d.anyThrows pushes = false ∧
      (d.calls pushes).m_NumElem = (d.calls pushes).m_MaxElem ∧
      ((d.calls pushes).pushFront p).1 = .error .overflow ∧
      ((d.calls pushes).pushFront p).2 = d.calls pushes ∧
      ((d.calls pushes).pushBack p).1 = .error .overflow ∧
      ((d.calls pushes).pushBack p).2 = d.calls pushes) := by
  obtain ⟨a, b⟩ := push_outcome d (reachable_count hr).2 p
  obtain ⟨f1, f2⟩ := pushes_fit pushes d hpush (by omega)
  have hm := cap_calls pushes d
  have hfull : (d.calls pushes).m_NumElem = (d.calls pushes).m_MaxElem := by omega
  obtain ⟨a', b'⟩ := push_outcome (d.calls pushes) (by omega) p
  exact ⟨a, b, f1, hfull, a'.1.2 hfull, a'.2 (a'.1.2 hfull), b'.1.2 hfull,
    b'.2 (b'.1.2 hfull)⟩

/-- C8 on an empty deque of capacity 3: three pushes, then the fourth. -/
theorem C8_overflow_witness :
    Reachable drained3 ∧
    (∀ x ∈ ([.pushBack 1, .pushFront 2, .pushBack 3] : List (Call Nat)), x.isPush = true) ∧
    ((([.pushBack 1, .pushFront 2, .pushBack 3] : List (Call Nat)).length : Int) =
      drained3.m_MaxElem - drained3.m_NumElem) ∧
    (((drained3.pushFront 8).1 = .error .overflow ↔ drained3.m_NumElem = drained3.m_MaxElem) ∧
      ((drained3.pushFront 8).1 = .error .overflow → (drained3.pushFront 8).2 = drained3)) ∧
    (((drained3.pushBack 8).1 = .error .overflow ↔ drained3.m_NumElem = drained3.m_MaxElem) ∧
      ((drained3.pushBack 8).1 = .error .overflow → (drained3.pushBack 8).2 = drained3)) ∧
    (drained3.anyThrows [.pushBack 1, .pushFront 2, .pushBack 3] = false ∧
      (drained3.calls [.pushBack 1, .pushFront 2, .pushBack 3]).m_NumElem =
        (drained3.calls [.pushBack 1, .pushFront 2, .pushBack 3]).m_MaxElem ∧
      ((drained3.calls [.pushBack 1, .pushFront 2, .pushBack 3]).pushFront 8).1 =
        .error .overflow ∧
      ((drained3.calls [.pushBack 1, .pushFront 2, .pushBack 3]).pushFront 8).2 =
        drained3.calls [.pushBack 1, .pushFront 2, .pushBack 3] ∧
      ((drained3.calls [.pushBack 1, .pushFront 2, .pushBack 3]).pushBack 8).1 =
        .error .overflow ∧
      ((drained3.calls [.pushBack 1, .pushFront 2, .pushBack 3]).pushBack 8).2 =
        drained3.calls [.pushBack 1, .pushFront 2, .pushBack 3]) :=
  ⟨⟨3, reachable_drained3⟩, by decide, by decide,
    C8_overflow drained3 ⟨3, reachable_drained3⟩ 8 [.pushBack 1, .pushFront 2, .pushBack 3]
      (by decide) (by decide)⟩

/-- C9: in every reachable state, each of `popFront()`, `popBack()`, `front()`
and `back()` throws the underflow exception exactly when `count == 0`, and the
deque a throwing call leaves behind is the deque it found (so count, beginIndex
and endIndex are what they were). -/
theorem C9_underflow {P : Type} [Inhabited P] (d : R2PointDeq P) (hr : Reachable d) :
    ((d.popFront.1 = .error .empty ↔ d.m_NumElem = 0) ∧
      (d.popFront.1 = .error .empty → d.popFront.2 = d)) ∧
    ((d.popBack.1 = .error .empty ↔ d.m_NumElem = 0) ∧
      (d.popBack.1 = .error .empty → d.popBack.2 = d)) ∧
    ((d.front.1 = .error .empty ↔ d.m_NumElem = 0) ∧
      (d.front.1 = .error .empty → d.front.2 = d)) ∧
    ((d.back.1 = .error .empty ↔ d.m_NumElem = 0) ∧
      (d.back.1 = .error .empty → d.back.2 = d)) := by
  have h0 := (reachable_count hr).1
  unfold R2PointDeq.popFront R2PointDeq.popBack R2PointDeq.front R2PointDeq.back
  by_cases he : d.m_NumElem ≤ 0
  · rw [if_pos he, if_pos he, if_pos he, if_pos he]
    exact ⟨⟨⟨fun _ => by omega, fun _ => rfl⟩, fun _ => rfl⟩,
      ⟨⟨fun _ => by omega, fun _ => rfl⟩, fun _ => rfl⟩,
      ⟨⟨fun _ => by omega, fun _ => rfl⟩, fun _ => rfl⟩,
      ⟨⟨fun _ => by omega, fun _ => rfl⟩, fun _ => rfl⟩⟩
  · rw [if_neg he, if_neg he, if_neg he, if_neg he]
    refine ⟨⟨⟨fun h => ?_, fun h => by omega⟩, fun h => ?_⟩,
      ⟨⟨fun h => ?_, fun h => by omega⟩, fun h => ?_⟩,
      ⟨⟨fun h => ?_, fun h => by omega⟩, fun h => ?_⟩,
      ⟨⟨fun h => ?_, fun h => by omega⟩, fun h => ?_⟩⟩ <;> cases h

/-- C9 on an empty deque of capacity 3. -/
theorem C9_underflow_witness :
    Reachable drained3 ∧
    ((drained3.popFront.1 = .error .empty ↔ drained3.m_NumElem = 0) ∧
      (drained3.popFront.1 = .error .empty → drained3.popFront.2 = drained3)) ∧
    ((drained3.popBack.1 = .error .empty ↔ drained3.m_NumElem = 0) ∧
      (drained3.popBack.1 = .error .empty → drained3.popBack.2 = drained3)) ∧
    ((drained3.front.1 = .error .empty ↔ drained3.m_NumElem = 0) ∧
      (drained3.front.1 = .error .empty → drained3.front.2 = drained3)) ∧
    ((drained3.back.1 = .error .empty ↔ drained3.m_NumElem = 0) ∧
      (drained3.back.1 = .error .empty → drained3.back.2 = drained3)) :=
  ⟨⟨3, reachable_drained3⟩, C9_underflow drained3 ⟨3, reachable_drained3⟩⟩

/-- C10, counterexample: `R2PointDeq(0)` does not fail; it produces a deque
object of capacity 0 with `m_Begin == 0`, `m_End == -1`, `m_NumElem == 0`. -/
theorem C10_zero_capacity_constructs :
    (0 : Int) ≤ 0 ∧
    (R2PointDeq.construct 0 : Option (R2PointDeq Nat)) ≠ none ∧
    (R2PointDeq.construct 0 : Option (R2PointDeq Nat)) =
      some { m_MaxElem := 0, m_Begin := 0, m_End := -1, m_NumElem := 0, m_Elements := [] } :=
  ⟨by decide, by decide, by decide⟩

/-- C10, amended: the constructor checks nothing.  For `maxElem <= 0` it fails
exactly when `maxElem` is negative (there is then no array to allocate), and
`R2PointDeq(0)` produces a deque object of capacity 0 with `m_Begin == 0`,
`m_End == -1`, `m_NumElem == 0` and no slot. -/
theorem C10_construct_nonpositive {P : Type} [Inhabited P] (maxElem : Int)
    (h : maxElem ≤ 0) :
    ((R2PointDeq.construct maxElem : Option (R2PointDeq P)) = none ↔ maxElem < 0) ∧
    (maxElem = 0 →
      (R2PointDeq.construct maxElem : Option (R2PointDeq P)) =
        some { m_MaxElem := 0, m_Begin := 0, m_End := -1, m_NumElem := 0, m_Elements := [] }) := by
  unfold R2PointDeq.construct
  by_cases hn : maxElem < 0
  · rw [if_pos hn]
    exact ⟨⟨fun _ => hn, fun _ => rfl⟩, fun h0 => by omega⟩
  · rw [if_neg hn]
    have h0 : maxElem = 0 := by omega
    subst h0
    exact ⟨⟨fun h => (by cases h), fun h => absurd h hn⟩, fun _ => rfl⟩

/-- C10 amended, at `maxElem = 0`. -/
theorem C10_construct_nonpositive_witness :
    (0 : Int) ≤ 0 ∧
    ((R2PointDeq.construct 0 : Option (R2PointDeq Nat)) = none ↔ (0 : Int) < 0) ∧
    ((0 : Int) = 0 →
      (R2PointDeq.construct 0 : Option (R2PointDeq Nat)) =
        some { m_MaxElem := 0, m_Begin := 0, m_End := -1, m_NumElem := 0, m_Elements := [] }) :=
  ⟨by decide, C10_construct_nonpositive 0 (by decide)⟩

theorem neg_lt_tmod (a : Int) {c : Int} (hc : 0 < c) : -c < Int.tmod a c := by
  obtain ⟨n, rfl⟩ := Int.eq_ofNat_of_zero_le (le_of_lt hc)
  cases a with
  | ofNat m =>
    have h : 0 ≤ Int.tmod (Int.ofNat m) (n : Int) :=
      Int.tmod_nonneg (n : Int) (Int.ofNat_nonneg m)
    omega
  | negSucc m =>
    have h : Int.tmod (Int.negSucc m) (n : Int) = -((m.succ % n : Nat) : Int) := rfl
    have hlt : m.succ % n < n := Nat.mod_lt m.succ (by omega)
    rw [h]
    generalize m.succ % n = r at hlt
    omega

/-- The two statements `current %= m_MaxElem; if (current < 0) current +=
m_MaxElem;` compute the mathematical remainder. -/
theorem tmod_normalised (a : Int) {c : Int} (hc : 0 < c) :
    (if Int.tmod a c < 0 then Int.tmod a c + c else Int.tmod a c) = a % c := by
  have hdiv := Int.tmod_add_tdiv a c
  have hlo := neg_lt_tmod a hc
  have hhi := Int.tmod_lt_of_pos a hc
  split
  · have e : a = (Int.tmod a c + c) + c * (a.tdiv c - 1) := by
      rw [Int.mul_sub, Int.mul_one]; omega
    conv => rhs; rw [e, Int.add_mul_emod_self_left]
    exact (Int.emod_eq_of_lt (by omega) (by omega)).symm
  · have e : a = Int.tmod a c + c * a.tdiv c := hdiv.symm
    conv => rhs; rw [e, Int.add_mul_emod_self_left]
    exact (Int.emod_eq_of_lt (by omega) hhi).symm

theorem addAssign_eq {P : Type} (d : R2PointDeq P) (hc : 1 ≤ d.m_MaxElem) (it : iterator)
    (n : Int) :
    it.addAssign d n =
      ⟨it.deq, (it.current + n) % d.m_MaxElem, it.pos + n⟩ := by
  have h := tmod_normalised (it.current + n) (by omega : 0 < d.m_MaxElem)
  unfold iterator.addAssign
  simp only
  split
  · rename_i hneg
    rw [if_pos hneg] at h
    rw [h]
  · rename_i hneg
    rw [if_neg hneg] at h
    rw [h]

theorem nextIndex_emod {P : Type} (d : R2PointDeq P) (hc : 1 ≤ d.m_MaxElem) (a : Int) :
    d.nextIndex (a % d.m_MaxElem) = (a + 1) % d.m_MaxElem := by
  have h0 := Int.emod_nonneg a (by omega : d.m_MaxElem ≠ 0)
  have h1 := Int.emod_lt_of_pos a (by omega : 0 < d.m_MaxElem)
  rw [← Int.emod_add_emod a d.m_MaxElem 1, emod_wrap (a := a % d.m_MaxElem + 1) (by omega) (by omega)]
  unfold R2PointDeq.nextIndex
  split <;> split <;> omega

theorem prevIndex_emod {P : Type} (d : R2PointDeq P) (hc : 1 ≤ d.m_MaxElem) (a : Int) :
    d.prevIndex (a % d.m_MaxElem) = (a - 1) % d.m_MaxElem := by
  have h0 := Int.emod_nonneg a (by omega : d.m_MaxElem ≠ 0)
  have h1 := Int.emod_lt_of_pos a (by omega : 0 < d.m_MaxElem)
  have e : (a - 1) % d.m_MaxElem = (a % d.m_MaxElem + (d.m_MaxElem - 1)) % d.m_MaxElem := by
    rw [Int.emod_add_emod]
    have e2 : a + (d.m_MaxElem - 1) = (a - 1) + d.m_MaxElem := by omega
    rw [e2, Int.add_emod_self]
  rw [e, emod_wrap (a := a % d.m_MaxElem + (d.m_MaxElem - 1)) (by omega) (by omega)]
  unfold R2PointDeq.prevIndex
  split <;> split <;> omega

theorem incrTimes_eq {P : Type} (d : R2PointDeq P) (hc : 1 ≤ d.m_MaxElem) (k : Nat) :
    ∀ (q : Nat) (a p : Int),
      iterator.incrTimes d k ⟨q, a % d.m_MaxElem, p⟩ =
        ⟨q, (a + (k : Int)) % d.m_MaxElem, p + (k : Int)⟩ := by
  induction k with
  | zero => intro q a p; simp [iterator.incrTimes]
  | succ k ih =>
    intro q a p
    rw [iterator.incrTimes]
    simp only [iterator.incr]
    rw [nextIndex_emod d hc, ih]
    push_cast
    rw [add_assoc a, add_assoc p, add_comm (1 : Int)]

theorem decrTimes_eq {P : Type} (d : R2PointDeq P) (hc : 1 ≤ d.m_MaxElem) (k : Nat) :
    ∀ (q : Nat) (a p : Int),
      iterator.decrTimes d k ⟨q, a % d.m_MaxElem, p⟩ =
        ⟨q, (a - (k : Int)) % d.m_MaxElem, p - (k : Int)⟩ := by
  induction k with
  | zero => intro q a p; simp [iterator.decrTimes]
  | succ k ih =>
    intro q a p
    rw [iterator.decrTimes]
    simp only [iterator.decr]
    rw [prevIndex_emod d hc, ih]
    push_cast
    rw [sub_sub a, sub_sub p, add_comm (1 : Int)]

/-- C11: for every deque of capacity `c >= 1`, every iterator whose physical
index lies in `[0, c)`, every `k >= 0` and every integer `n`: `it += k` is the
iterator `k` single increments produce, `it += -k` is the iterator `k` single
decrements produce (same bound deque, same logical position, same physical
index), `it -= n` is `it += (-n)`, `it + n` is a copy advanced by `+= n` and
`it - n` one advanced by `+= (-n)`; so bulk step and single steps dereference
alike. -/
theorem C11_bulk_step_is_single_steps {P : Type} [Inhabited P] (d : R2PointDeq P)
    (hc : 1 ≤ d.m_MaxElem) (it : iterator) (h0 : 0 ≤ it.current)
    (h1 : it.current < d.m_MaxElem) (k : Nat) (n : Int) :
    it.addAssign d (k : Int) = iterator.incrTimes d k it ∧
    it.addAssign d (-(k : Int)) = iterator.decrTimes d k it ∧
    it.subAssign d n = it.addAssign d (-n) ∧
    it.plus d n = it.addAssign d n ∧
    it.minus d n = it.addAssign d (-n) ∧
    (it.addAssign d (k : Int)).deref d = (iterator.incrTimes d k it).deref d ∧
    (it.addAssign d (-(k : Int))).deref d = (iterator.decrTimes d k it).deref d := by
  have hit : it = ⟨it.deq, it.current % d.m_MaxElem, it.pos⟩ := by
    rw [Int.emod_eq_of_lt h0 h1]
  have hi : it.addAssign d (k : Int) = iterator.incrTimes d k it := by
    rw [addAssign_eq d hc]
    conv => rhs; rw [hit, incrTimes_eq d hc]
  have hd : it.addAssign d (-(k : Int)) = iterator.decrTimes d k it := by
    rw [addAssign_eq d hc]
    conv => rhs; rw [hit, decrTimes_eq d hc]
    rfl
  exact ⟨hi, hd, rfl, rfl, rfl, by rw [hi], by rw [hd]⟩

/-- C11 on the wrapped deque of capacity 3, from `begin()`, five steps each
way. -/
theorem C11_bulk_step_is_single_steps_witness :
    1 ≤ wrapped3.m_MaxElem ∧ 0 ≤ (wrapped3.begin 0).current ∧
    (wrapped3.begin 0).current < wrapped3.m_MaxElem ∧
    (wrapped3.begin 0).addAssign wrapped3 ((5 : Nat) : Int) =
      iterator.incrTimes wrapped3 5 (wrapped3.begin 0) ∧
    (wrapped3.begin 0).addAssign wrapped3 (-((5 : Nat) : Int)) =
      iterator.decrTimes wrapped3 5 (wrapped3.begin 0) ∧
    (wrapped3.begin 0).subAssign wrapped3 4 = (wrapped3.begin 0).addAssign wrapped3 (-4) ∧
    (wrapped3.begin 0).plus wrapped3 4 = (wrapped3.begin 0).addAssign wrapped3 4 ∧
    (wrapped3.begin 0).minus wrapped3 4 = (wrapped3.begin 0).addAssign wrapped3 (-4) ∧
    ((wrapped3.begin 0).addAssign wrapped3 ((5 : Nat) : Int)).deref wrapped3 =
      (iterator.incrTimes wrapped3 5 (wrapped3.begin 0)).deref wrapped3 ∧
    ((wrapped3.begin 0).addAssign wrapped3 (-((5 : Nat) : Int))).deref wrapped3 =
      (iterator.decrTimes wrapped3 5 (wrapped3.begin 0)).deref wrapped3 :=
  ⟨by decide, by decide, by decide,
    C11_bulk_step_is_single_steps wrapped3 (by decide) (wrapped3.begin 0) (by decide)
      (by decide) 5 4⟩

/-- C12: in every state, reachable or not (so empty, partly filled or full),
`operator*` and `operator->` applied to the iterator `end()` returns throw the
index-out-of-bounds exception and leave the deque as it was. -/
theorem C12_deref_end_throws {P : Type} [Inhabited P] (d : R2PointDeq P) (self : Nat) :
    ((d.end_ self).deref d).1 = .error .indexOutOfBounds ∧
    ((d.end_ self).deref d).2 = d ∧
    ((d.end_ self).arrow d).1 = .error .indexOutOfBounds ∧
    ((d.end_ self).arrow d).2 = d := by
  unfold iterator.deref iterator.arrow R2PointDeq.end_
  simp only [ge_iff_le, le_refl, if_true, and_self]

/-- C13, the code at a failing input: on the deque of capacity 3 holding `5, 7`
(window in slots 2 and 0), `begin()` decremented once has logical position `-1`
and physical index 1; dereferencing it does not throw, it returns the stale
content `0` of slot 1, which is outside the logical window. -/
theorem C13_deref_below_begin_returns :
    wrapped3.contents = [5, 7] ∧
    ((wrapped3.begin 0).decr wrapped3).pos = -1 ∧
    ((wrapped3.begin 0).decr wrapped3).current = 1 ∧
    (((wrapped3.begin 0).decr wrapped3).deref wrapped3).1 = .ok 0 ∧
    (((wrapped3.begin 0).decr wrapped3).arrow wrapped3).1 = .ok 0 ∧
    (((wrapped3.begin 0).addAssign wrapped3 (-1)).deref wrapped3).1 = .ok 0 :=
  ⟨by decide, by decide, by decide, rfl, rfl, rfl⟩

/-- C15: for two iterators bound to the same deque object, `a == b` holds
exactly when their logical positions are equal, whatever their physical
indices, and `a != b` is the negation of `a == b`. -/
theorem C15_iterator_equality (a b : iterator) (h : a.deq = b.deq) :
    (a.eq b = true ↔ a.pos = b.pos) ∧ a.ne b = !(a.eq b) := by
  refine ⟨?_, rfl⟩
  unfold iterator.eq
  simp [h]

/-- C15 for two iterators of one deque at position 2 with different physical
indices. -/
theorem C15_iterator_equality_witness :
    (⟨7, 1, 2⟩ : iterator).deq = (⟨7, 0, 2⟩ : iterator).deq ∧
    ((iterator.eq ⟨7, 1, 2⟩ ⟨7, 0, 2⟩ = true ↔
        (⟨7, 1, 2⟩ : iterator).pos = (⟨7, 0, 2⟩ : iterator).pos) ∧
      iterator.ne ⟨7, 1, 2⟩ ⟨7, 0, 2⟩ = !(iterator.eq ⟨7, 1, 2⟩ ⟨7, 0, 2⟩)) :=
  ⟨rfl, C15_iterator_equality ⟨7, 1, 2⟩ ⟨7, 0, 2⟩ rfl⟩

/-- C16: in every reachable state, `clear()` throws nothing and leaves the
count at 0, `m_Begin` at 0 and `m_End` at `capacity - 1`, which are the values
of the deque the constructor builds for that capacity; the capacity and the
array are untouched. -/
theorem C16_clear_resets {P : Type} [Inhabited P] (d : R2PointDeq P) (hr : Reachable d) :
    d.callThrows .clear = false ∧
    d.clear.m_NumElem = 0 ∧ d.clear.m_Begin = 0 ∧ d.clear.m_End = d.m_MaxElem - 1 ∧
    d.clear.m_MaxElem = d.m_MaxElem ∧ d.clear.m_Elements = d.m_Elements ∧
    ∃ d0 : R2PointDeq P, R2PointDeq.construct d.m_MaxElem = some d0 ∧
      d.clear.m_NumElem = d0.m_NumElem ∧ d.clear.m_Begin = d0.m_Begin ∧
      d.clear.m_End = d0.m_End := by
  have hcap : ¬ d.m_MaxElem < 0 := by
    have h := reachable_count hr
    omega
  refine ⟨rfl, rfl, rfl, rfl, rfl, rfl, ?_⟩
  unfold R2PointDeq.construct
  rw [if_neg hcap]
  exact ⟨_, rfl, rfl, rfl, rfl⟩

/-- C16 on the wrapped deque of capacity 3. -/
theorem C16_clear_resets_witness :
    Reachable wrapped3 ∧
    wrapped3.callThrows .clear = false ∧
    wrapped3.clear.m_NumElem = 0 ∧ wrapped3.clear.m_Begin = 0 ∧
    wrapped3.clear.m_End = wrapped3.m_MaxElem - 1 ∧
    wrapped3.clear.m_MaxElem = wrapped3.m_MaxElem ∧
    wrapped3.clear.m_Elements = wrapped3.m_Elements ∧
    ∃ d0 : R2PointDeq Nat, R2PointDeq.construct wrapped3.m_MaxElem = some d0 ∧
      wrapped3.clear.m_NumElem = d0.m_NumElem ∧ wrapped3.clear.m_Begin = d0.m_Begin ∧
      wrapped3.clear.m_End = d0.m_End :=
  ⟨reachable_wrapped3, C16_clear_resets wrapped3 reachable_wrapped3⟩

/-- C17: in every reachable state with `count > 0`, `front()` returns the slot
at `m_Begin`, which is the first element of the logical contents and the value
the next `popFront()` returns; `back()` returns the slot at `m_End`, which is
the last element of the logical contents and the value the next `popBack()`
returns; both leave the deque exactly as it was. -/
theorem C17_front_back {P : Type} [Inhabited P] (d : R2PointDeq P) (hr : Reachable d)
    (hpos : 0 < d.m_NumElem) :
    (d.front = (.ok (d.elem d.m_Begin), d) ∧
      d.contents.head? = some (d.elem d.m_Begin) ∧
      d.popFront.1 = .ok (d.elem d.m_Begin)) ∧
    (d.back = (.ok (d.elem d.m_End), d) ∧
      d.contents.getLast? = some (d.elem d.m_End) ∧
      d.contents.length = d.m_NumElem.toNat ∧
      d.popBack.1 = .ok (d.elem d.m_End)) := by
  have hi : Inv d := by
    rcases reachable_cases hr with h | h
    · exact h
    · omega
  obtain ⟨f1, f2⟩ := contents_popFront hi hpos
  obtain ⟨b1, b2⟩ := contents_popBack hi hpos
  refine ⟨⟨?_, ?_, f1⟩, ⟨?_, ?_, ?_, b1⟩⟩
  · unfold R2PointDeq.front; rw [if_neg (by omega)]
  · rw [f2]; rfl
  · unfold R2PointDeq.back; rw [if_neg (by omega)]
  · rw [b2]; simp
  · simp [R2PointDeq.contents]

/-- C17 on the wrapped deque of capacity 3 holding two points. -/
theorem C17_front_back_witness :
    Reachable wrapped3 ∧ 0 < wrapped3.m_NumElem ∧
    (wrapped3.front = (.ok (wrapped3.elem wrapped3.m_Begin), wrapped3) ∧
      wrapped3.contents.head? = some (wrapped3.elem wrapped3.m_Begin) ∧
      wrapped3.popFront.1 = .ok (wrapped3.elem wrapped3.m_Begin)) ∧
    (wrapped3.back = (.ok (wrapped3.elem wrapped3.m_End), wrapped3) ∧
      wrapped3.contents.getLast? = some (wrapped3.elem wrapped3.m_End) ∧
      wrapped3.contents.length = wrapped3.m_NumElem.toNat ∧
      wrapped3.popBack.1 = .ok (wrapped3.elem wrapped3.m_End)) :=
  ⟨reachable_wrapped3, by decide, C17_front_back wrapped3 reachable_wrapped3 (by decide)⟩

/-- C18: the scenario on a deque of capacity 4.  After push back `(0,0)`,
`(1,1)` and push front `(-1,-1)` (none throws) the contents are `(-1,-1),
(0,0), (1,1)` and the count is 3; `popBack()` returns `(1,1)` and leaves the
count at 2; push front `(2,2)` and `(3,3)` (none throws) bring the count to 4; a
further pushFront, of any point, throws the overflow exception and changes
nothing; then `popFront()` returns `(3,3)`, the next `popFront()` returns
`(2,2)`, and the contents are `(-1,-1), (0,0)`. -/
theorem C18_scenario_capacity_4 :
    ∃ d0 : R2PointDeq (Int × Int), R2PointDeq.construct 4 = some d0 ∧
      d0.anyThrows scenarioOpening = false ∧
      (d0.calls scenarioOpening).contents = [(-1, -1), (0, 0), (1, 1)] ∧
      (d0.calls scenarioOpening).m_NumElem = 3 ∧
      (d0.calls scenarioOpening).popBack.1 = .ok (1, 1) ∧
      (d0.calls scenarioOpening).popBack.2.m_NumElem = 2 ∧
      d0.anyThrows scenarioFilling = false ∧
      (d0.calls scenarioFilling).m_NumElem = 4 ∧
      (∀ q : Int × Int,
        ((d0.calls scenarioFilling).pushFront q).1 = .error .overflow ∧
        ((d0.calls scenarioFilling).pushFront q).2 = d0.calls scenarioFilling) ∧
      (d0.calls scenarioFilling).popFront.1 = .ok (3, 3) ∧
      (d0.calls scenarioFilling).popFront.2.popFront.1 = .ok (2, 2) ∧
      (d0.calls scenarioFilling).popFront.2.popFront.2.contents = [(-1, -1), (0, 0)] :=
  ⟨_, rfl, by decide, by decide, by decide, rfl, by decide, by decide, by decide,
    fun _ => ⟨rfl, rfl⟩, rfl, rfl, by decide⟩

/-- C19: on a deque of capacity `c >= 1` and for every index `i` in `[0, c)`,
`nextIndex(i)` is `(i + 1) mod c`, `prevIndex(i)` is `(i - 1 + c) mod c`, and
both lie in `[0, c)`. -/
theorem C19_ring_steps {P : Type} (d : R2PointDeq P) (hc : 1 ≤ d.m_MaxElem) (i : Int)
    (h0 : 0 ≤ i) (h1 : i < d.m_MaxElem) :
    d.nextIndex i = (i + 1) % d.m_MaxElem ∧
    d.prevIndex i = (i - 1 + d.m_MaxElem) % d.m_MaxElem ∧
    (0 ≤ d.nextIndex i ∧ d.nextIndex i < d.m_MaxElem) ∧
    (0 ≤ d.prevIndex i ∧ d.prevIndex i < d.m_MaxElem) := by
  rw [emod_wrap (a := i + 1) (by omega) (by omega),
    emod_wrap (a := i - 1 + d.m_MaxElem) (by omega) (by omega)]
  unfold R2PointDeq.nextIndex R2PointDeq.prevIndex
  refine ⟨?_, ?_, ⟨?_, ?_⟩, ⟨?_, ?_⟩⟩
  · split <;> split <;> omega
  · split <;> split <;> omega
  · split <;> omega
  · split <;> omega
  · split <;> omega
  · split <;> omega

/-- C19 on a deque of capacity 3 at the last index, where `nextIndex` wraps. -/
theorem C19_ring_steps_witness :
    1 ≤ wrapped3.m_MaxElem ∧ (0 : Int) ≤ 2 ∧ (2 : Int) < wrapped3.m_MaxElem ∧
    wrapped3.nextIndex 2 = (2 + 1) % wrapped3.m_MaxElem ∧
    wrapped3.prevIndex 2 = (2 - 1 + wrapped3.m_MaxElem) % wrapped3.m_MaxElem ∧
    (0 ≤ wrapped3.nextIndex 2 ∧ wrapped3.nextIndex 2 < wrapped3.m_MaxElem) ∧
    (0 ≤ wrapped3.prevIndex 2 ∧ wrapped3.prevIndex 2 < wrapped3.m_MaxElem) :=
  ⟨by decide, by decide, by decide,
    C19_ring_steps wrapped3 (by decide) 2 (by decide) (by decide)⟩

/-- C20: in every state reachable from `R2PointDeq(c)` with `c >= 1` (the empty
ones and the full ones included), `begin()` advanced by `size()`, in one `+=
size()` or in `size()` single increments, is the iterator `end()`: same logical
position and same physical index; that is, `nextIndex(m_End)` is `(m_Begin +
m_NumElem) mod m_MaxElem`. -/
theorem C20_begin_plus_size_is_end {P : Type} [Inhabited P] (c : Int) (hc : 1 ≤ c)
    (d : R2PointDeq P) (hr : ReachableFrom c d) (self : Nat) :
    (d.begin self).addAssign d d.size = d.end_ self ∧
    iterator.incrTimes d d.size.toNat (d.begin self) = d.end_ self ∧
    d.nextIndex d.m_End = (d.m_Begin + d.m_NumElem) % d.m_MaxElem := by
  obtain ⟨hi, -⟩ := reachableFrom_inv hc hr
  obtain ⟨h1, h2, h3, h4, h5, h6, h7, h8, h9⟩ := hi
  have hnext : d.nextIndex d.m_End = (d.m_Begin + d.m_NumElem) % d.m_MaxElem := by
    rw [emod_wrap (a := d.m_Begin + d.m_NumElem) (by omega) (by omega)]
    unfold R2PointDeq.nextIndex
    split <;> split <;> omega
  have hend : d.end_ self = ⟨self, (d.m_Begin + d.m_NumElem) % d.m_MaxElem, d.m_NumElem⟩ := by
    unfold R2PointDeq.end_ R2PointDeq.size
    rw [hnext]
  have hbegin : d.begin self = ⟨self, d.m_Begin % d.m_MaxElem, 0⟩ := by
    unfold R2PointDeq.begin
    rw [Int.emod_eq_of_lt h3 h4]
  have hcast : ((d.m_NumElem.toNat : Nat) : Int) = d.m_NumElem := by omega
  refine ⟨?_, ?_, hnext⟩
  · rw [addAssign_eq d h1, hend]
    simp [R2PointDeq.begin, R2PointDeq.size]
  · rw [hbegin, incrTimes_eq d h1, hend]
    unfold R2PointDeq.size
    rw [hcast, zero_add]

/-- C20 on an empty deque of capacity 3 whose indices sit mid-array. -/
theorem C20_begin_plus_size_is_end_witness :
    (1 : Int) ≤ 3 ∧ ReachableFrom 3 drained3 ∧
    (drained3.begin 0).addAssign drained3 drained3.size = drained3.end_ 0 ∧
    iterator.incrTimes drained3 drained3.size.toNat (drained3.begin 0) = drained3.end_ 0 ∧
    drained3.nextIndex drained3.m_End =
      (drained3.m_Begin + drained3.m_NumElem) % drained3.m_MaxElem :=
  ⟨by decide, reachable_drained3,
    C20_begin_plus_size_is_end 3 (by decide) drained3 reachable_drained3 0⟩

theorem reachable_full3 : ReachableFrom 3 full3 :=
  ⟨_, rfl, [.pushBack 1, .popFront, .pushBack 10, .pushBack 20, .pushBack 30], by decide⟩

/-- C21: in every state `d`, reachable or not, `begin() == end()` holds exactly
when `count == 0`.  In every full state `f` (`count == capacity`) reachable from
`R2PointDeq(c)` with `c >= 1`, `begin()` and `end()` carry the same physical
index and yet compare unequal, and the loop from `begin()` to `end()` is not
empty: it does not end at once, it ends within `fuel` rounds exactly when
`capacity <= fuel`, and it then yields the `capacity >= 1` points of the
logical contents. -/
theorem C21_begin_eq_end_iff_empty {P : Type} [Inhabited P] (d : R2PointDeq P)
    (c : Int) (hc : 1 ≤ c) (f : R2PointDeq P) (hf : ReachableFrom c f)
    (hfull : f.m_NumElem = f.m_MaxElem) (self fuel : Nat) :
    ((d.begin self).eq (d.end_ self) = true ↔ d.m_NumElem = 0) ∧
    ((f.begin self).current = (f.end_ self).current ∧
      (f.begin self).eq (f.end_ self) = false ∧
      (f.begin self).ne (f.end_ self) = true ∧
      f.traverse self 0 = none ∧
      f.traverse self fuel =
        (if f.m_MaxElem.toNat ≤ fuel then some (.ok f.contents) else none) ∧
      f.contents.length = f.m_MaxElem.toNat ∧ 0 < f.contents.length) := by
  have hiff : ∀ e : R2PointDeq P,
      ((e.begin self).eq (e.end_ self) = true ↔ e.m_NumElem = 0) := by
    intro e
    unfold iterator.eq R2PointDeq.begin R2PointDeq.end_ R2PointDeq.size
    simp only [beq_self_eq_true, Bool.true_and, beq_iff_eq]
    exact ⟨fun h => h.symm, fun h => h.symm⟩
  obtain ⟨hi, hm⟩ := reachableFrom_inv hc hf
  have hpos : f.m_NumElem ≠ 0 := by
    have h1 := hi.1
    omega
  have hne : (f.begin self).eq (f.end_ self) = false := by
    cases hb : (f.begin self).eq (f.end_ self) with
    | false => rfl
    | true => exact absurd ((hiff f).1 hb) hpos
  have hlen : f.contents.length = f.m_MaxElem.toNat := by
    simp [R2PointDeq.contents, hfull]
  have hcur : (f.begin self).current = (f.end_ self).current := by
    obtain ⟨h1, h2, h3, h4, h5, h6, h7, h8, h9⟩ := hi
    unfold R2PointDeq.begin R2PointDeq.end_ R2PointDeq.nextIndex
    simp only
    split <;> omega
  have ht := traverse_spec f hi self
  refine ⟨hiff d, hcur, hne, ?_, ?_, ?_, hlen, ?_⟩
  · unfold iterator.ne
    rw [hne]
    rfl
  · rw [ht 0, if_neg]
    have h1 := hi.1
    omega
  · rw [ht fuel, hfull]
  · rw [hlen]
    have h1 := hi.1
    omega

/-- C21 on an empty and on a full deque of capacity 3, three rounds. -/
theorem C21_begin_eq_end_iff_empty_witness :
    (1 : Int) ≤ 3 ∧ ReachableFrom 3 full3 ∧
    full3.m_NumElem = full3.m_MaxElem ∧
    ((drained3.begin 0).eq (drained3.end_ 0) = true ↔ drained3.m_NumElem = 0) ∧
    ((full3.begin 0).current = (full3.end_ 0).current ∧
      (full3.begin 0).eq (full3.end_ 0) = false ∧
      (full3.begin 0).ne (full3.end_ 0) = true ∧
      full3.traverse 0 0 = none ∧
      full3.traverse 0 3 =
        (if full3.m_MaxElem.toNat ≤ 3 then some (.ok full3.contents) else none) ∧
      full3.contents.length = full3.m_MaxElem.toNat ∧ 0 < full3.contents.length) :=
  ⟨by decide, reachable_full3, by decide,
    C21_begin_eq_end_iff_empty drained3 3 (by decide) full3 reachable_full3 (by decide) 0 3⟩

/-- C22: on a deque of capacity `c` (at least one, as an index exists), for
every index `i` in `[0, c)`,
`prevIndex(nextIndex(i)) == i` and `nextIndex(prevIndex(i)) == i`; so for every
iterator whose physical index lies in `[0, c)`, `++` followed by `--`, and `--`
followed by `++`, give back the iterator: same deque, same logical position,
same physical index. -/
theorem C22_next_prev_inverse {P : Type} (d : R2PointDeq P) (i : Int)
    (h0 : 0 ≤ i) (h1 : i < d.m_MaxElem) (it : iterator) (hit0 : 0 ≤ it.current)
    (hit1 : it.current < d.m_MaxElem) :
    d.prevIndex (d.nextIndex i) = i ∧ d.nextIndex (d.prevIndex i) = i ∧
    (it.incr d).decr d = it ∧ (it.decr d).incr d = it := by
  have hpn : ∀ j : Int, 0 ≤ j → j < d.m_MaxElem → d.prevIndex (d.nextIndex j) = j := by
    intro j hj0 hj1
    unfold R2PointDeq.prevIndex R2PointDeq.nextIndex
    split <;> split <;> omega
  have hnp : ∀ j : Int, 0 ≤ j → j < d.m_MaxElem → d.nextIndex (d.prevIndex j) = j := by
    intro j hj0 hj1
    unfold R2PointDeq.prevIndex R2PointDeq.nextIndex
    split <;> split <;> omega
  refine ⟨hpn i h0 h1, hnp i h0 h1, ?_, ?_⟩
  · cases it with
    | mk q cur p =>
      simp only [iterator.incr, iterator.decr]
      rw [hpn cur hit0 hit1, Int.add_sub_cancel]
  · cases it with
    | mk q cur p =>
      simp only [iterator.incr, iterator.decr]
      rw [hnp cur hit0 hit1, Int.sub_add_cancel]

/-- C22 on a deque of capacity 3, at the last index and from `begin()`, which
sits there, so that the increment wraps. -/
theorem C22_next_prev_inverse_witness :
    (0 : Int) ≤ 2 ∧ (2 : Int) < wrapped3.m_MaxElem ∧
    0 ≤ (wrapped3.begin 0).current ∧ (wrapped3.begin 0).current < wrapped3.m_MaxElem ∧
    wrapped3.prevIndex (wrapped3.nextIndex 2) = 2 ∧
    wrapped3.nextIndex (wrapped3.prevIndex 2) = 2 ∧
    ((wrapped3.begin 0).incr wrapped3).decr wrapped3 = wrapped3.begin 0 ∧
    ((wrapped3.begin 0).decr wrapped3).incr wrapped3 = wrapped3.begin 0 :=
  ⟨by decide, by decide, by decide, by decide,
    C22_next_prev_inverse wrapped3 2 (by decide) (by decide) (wrapped3.begin 0)
      (by decide) (by decide)⟩

end PointDeq
